import Mathlib

/-!
Verification of the bup VFS layer specification against a shallow
embedding of the code.  The repository's own files under test are the
test suite `lib/bup/t/tvfs.py` (embedded directly where a claim cites
it) and the VFS module it exercises; the VFS module itself is not part
of the staged sources, so its operations are modelled from the
specification, faithful to its words, and cross-checked against the
concrete expectations pinned by the test suite.
-/

set_option maxRecDepth 4000
set_option maxHeartbeats 1000000

namespace Bup

/-- A 20-byte content address, modelled as an opaque numeric identifier
with decidable equality. -/
abbrev Oid := Nat

/-- POSIX mode-format mask, `S_IFMT` (0o170000). -/
def S_IFMT : Nat := 61440

/-- Directory mode bits, `S_IFDIR` (0o040000). -/
def S_IFDIR : Nat := 16384

/-- Regular-file mode bits, `S_IFREG` (0o100000). -/
def S_IFREG : Nat := 32768

/-- Symlink mode bits, `S_IFLNK` (0o120000). -/
def S_IFLNK : Nat := 40960

/-- Test whether a mode denotes a directory. -/
def S_ISDIR (m : Nat) : Bool := m &&& S_IFMT == S_IFDIR

/-- Test whether a mode denotes a regular file. -/
def S_ISREG (m : Nat) : Bool := m &&& S_IFMT == S_IFREG

/-- Test whether a mode denotes a symlink. -/
def S_ISLNK (m : Nat) : Bool := m &&& S_IFMT == S_IFLNK

/-- Modelled from the spec: the default directory mode used when no
metadata record is available (`S_IFDIR | 0o755`). -/
def default_dir_mode : Nat := 16877

/-- Modelled from the spec: the default regular-file mode
(`S_IFREG | 0o644`). -/
def default_file_mode : Nat := 33188

/-- Modelled from the spec: the default symlink mode
(`S_IFLNK | 0o777`). -/
def default_symlink_mode : Nat := 41471

/-- Modelled from the spec: a full `Metadata` record as the VFS consumes
it — mode, ids, the three times, an optional symlink target and an
optional size. -/
structure Metadata where
  mode : Nat
  uid : Nat
  gid : Nat
  atime : Nat
  mtime : Nat
  ctime : Nat
  symlink_target : Option String
  size : Option Nat
deriving DecidableEq, Repr

/-- Modelled from the spec: a `Metadata` synthesized from a bare mode,
with zeros for uid/gid/atime/mtime/ctime and nothing else filled. -/
def Metadata.ofMode (m : Nat) : Metadata := ⟨m, 0, 0, 0, 0, 0, none, none⟩

/-- Modelled from the spec: an item's `meta` attribute is either a bare
integer mode (a placeholder) or a full `Metadata` record. -/
inductive Meta
  | mode (m : Nat)
  | full (md : Metadata)
deriving DecidableEq, Repr

/-- Mode carried by a `Meta` value: the integer itself when bare, else
the record's mode field. -/
def metaMode : Meta → Nat
  | .mode m => m
  | .full md => md.mode

/-- Modelled from the spec: the closed set of VFS item variants — root,
tag directory, per-branch revision list, commit, generic leaf, chunked
file and synthesized symlink. -/
inductive Item
  | root
  | tags
  | revList (oid : Oid) (meta : Meta)
  | commit (oid : Oid) (coid : Oid) (meta : Meta)
  | item (oid : Oid) (meta : Meta)
  | chunked (oid : Oid) (meta : Meta)
  | fakeLink (target : String) (meta : Meta)
deriving DecidableEq, Repr

/-- The `meta` attribute of an item; the synthesized root and tag
directory carry none. -/
def Item.meta? : Item → Option Meta
  | .root => none
  | .tags => none
  | .revList _ m => some m
  | .commit _ _ m => some m
  | .item _ m => some m
  | .chunked _ m => some m
  | .fakeLink _ m => some m

/-- The object address of an item, when it has one. -/
def Item.oid? : Item → Option Oid
  | .root => none
  | .tags => none
  | .revList o _ => some o
  | .commit o _ _ => some o
  | .item o _ => some o
  | .chunked o _ => some o
  | .fakeLink _ _ => none

/-- Replace an item's `meta`; the meta-less root and tag directory are
returned unchanged. -/
def Item.withMeta : Item → Meta → Item
  | .root, _ => .root
  | .tags, _ => .tags
  | .revList o _, m => .revList o m
  | .commit o c _, m => .commit o c m
  | .item o _, m => .item o m
  | .chunked o _, m => .chunked o m
  | .fakeLink t _, m => .fakeLink t m

/-- Modelled from the spec: `item_mode` returns the meta itself when it
is an integer, else `meta.mode`; the synthesized root and tag directory
behave as directories. -/
def item_mode (i : Item) : Nat :=
  match i.meta? with
  | none => default_dir_mode
  | some m => metaMode m

/-- Modelled from the spec: one decoded tree entry — user-visible name,
demangled kind tag, git mode and child oid.  The raw wire format and the
name-mangling scheme are external decoding concerns; the claims under
check consume entries at this decoded level. -/
inductive Kind
  | normal
  | chunkedK
  | symlinkKind
  | dirKind
  | commitKind
deriving DecidableEq, Repr

/-- A decoded tree entry as produced by the tree decoder. -/
structure TreeEntry where
  name : String
  kind : Kind
  gitmode : Nat
  oid : Oid
deriving DecidableEq, Repr

/-- A decoded tree object: its ordered entries (the `.bupm` entry
already split off) together with the decoded records of its metadata
stream, the directory's own record first. -/
structure TreeObj where
  entries : List TreeEntry
  bupm : Option (List Metadata)
deriving DecidableEq, Repr

/-- A commit object: its tree, author timestamp (seconds) and
first parent. -/
structure CommitObj where
  tree : Oid
  author_sec : Nat
  parent : Option Oid
deriving DecidableEq, Repr

/-- Modelled from the spec: the object store interface the VFS consumes —
oid-to-bytes for blobs, decoded trees, branch tips, tags and commits. -/
structure Repo where
  blobs : List (Oid × String)
  trees : List (Oid × TreeObj)
  branches : List (String × Oid)
  tags : List (String × Oid)
  commits : List (Oid × CommitObj)
deriving DecidableEq, Repr

/-- Blob bytes at an oid. -/
def Repo.blob (r : Repo) (o : Oid) : Option String := r.blobs.lookup o

/-- Decoded tree at an oid. -/
def Repo.tree (r : Repo) (o : Oid) : Option TreeObj := r.trees.lookup o

/-- Commit object at an oid. -/
def Repo.commitAt (r : Repo) (o : Oid) : Option CommitObj := r.commits.lookup o

/-- Modelled from the spec: `readlink` returns a symlink's target — the
`symlink_target` of a full `Metadata` when present, else the blob at the
item's oid; it fails on a non-symlink. -/
def readlink (r : Repo) (i : Item) : Option String :=
  if S_ISLNK (item_mode i) then
    match i with
    | .fakeLink t _ => some t
    | _ =>
      match i.meta? with
      | some (.full md) =>
        match md.symlink_target with
        | some t => some t
        | none => i.oid?.bind r.blob
      | _ => i.oid?.bind r.blob
  else none

/-- Modelled from the spec: the summed extents of a chunked file's tree
of blobs; fuel bounds the (content-addressed, hence acyclic) descent. -/
def chunkedSize (r : Repo) : Nat → Oid → Option Nat
  | 0, _ => none
  | fuel + 1, oid =>
    match r.tree oid with
    | none => none
    | some t =>
      t.entries.foldlM
        (fun acc e =>
          (if S_ISDIR e.gitmode then chunkedSize r fuel e.oid
           else (r.blob e.oid).map String.length).map (acc + ·))
        0

/-- Modelled from the spec: the logical size computed by store reads —
target length for symlinks, blob length (or summed extents) for regular
files, zero for anything else. -/
def computeItemSize (r : Repo) (i : Item) : Option Nat :=
  if S_ISLNK (item_mode i) then (readlink r i).map String.length
  else
    match i with
    | .item oid m =>
      if S_ISREG (metaMode m) then (r.blob oid).map String.length else some 0
    | .chunked oid _ => chunkedSize r (r.trees.length + 1) oid
    | _ => some 0

/-- Modelled from the spec: `item_size` returns `meta.size` without any
store read when a full `Metadata` already carries it, else computes the
size. -/
def item_size (r : Repo) (i : Item) : Option Nat :=
  match i.meta? with
  | some (.full md) =>
    match md.size with
    | some s => some s
    | none => computeItemSize r i
  | _ => computeItemSize r i

/-- Modelled from the spec: the enrichment half of the augmenter — for a
symlink fill `symlink_target` and `size` regardless of `include_size`;
for a non-symlink fill `size` via `item_size` when requested. -/
def augmentFrom (r : Repo) (i : Item) (md : Metadata) (include_size : Bool) :
    Option Item :=
  if S_ISLNK md.mode then
    match readlink r i with
    | none => none
    | some t =>
      some (i.withMeta (.full
        { md with symlink_target := some t, size := some t.length }))
  else if include_size then
    match item_size r i with
    | none => none
    | some s => some (i.withMeta (.full { md with size := some s }))
  else some (i.withMeta (.full md))

/-- Modelled from the spec: `augment_item_meta` returns the same item
when its meta is already a full `Metadata` and either `include_size` is
false or the size is already set; otherwise it synthesizes or enriches a
full record. -/
def augment_item_meta (r : Repo) (i : Item) (include_size : Bool) :
    Option Item :=
  match i.meta? with
  | none => some i
  | some (.full md) =>
    if include_size && md.size.isNone then augmentFrom r i md include_size
    else some i
  | some (.mode m) => augmentFrom r i (Metadata.ofMode m) include_size

/-- The symlink target recorded in an item's full metadata, if any. -/
def metaTargetOf (i : Item) : Option String :=
  match i.meta? with
  | some (.full md) => md.symlink_target
  | _ => none

/-- The size recorded in an item's full metadata, if any. -/
def metaSizeOf (i : Item) : Option Nat :=
  match i.meta? with
  | some (.full md) => md.size
  | _ => none

/-- Whether an item's meta is a full `Metadata` record. -/
def isFullMeta (i : Item) : Bool :=
  match i.meta? with
  | some (.full _) => true
  | _ => false

/-- The literal name of the current-directory entry. -/
def dotStr : String := "."

/-- The literal parent-directory component. -/
def dotdotStr : String := ".."

/-- The path separator as a string. -/
def slashStr : String := "/"

/-- The empty string (the root's name in a resolution chain). -/
def emptyStr : String := ""

/-- The hyphen used by timestamp names and duplicate suffixes. -/
def dashStr : String := "-"

/-- The synthesized tag directory's name. -/
def tagDirName : String := ".tag"

/-- The alias naming a branch's tip commit. -/
def latestStr : String := "latest"

/-- Left-pad a decimal rendering of `n` with zeros to width `w`. -/
def padNum (w n : Nat) : String :=
  let s := Nat.repr n
  String.mk (List.replicate (w - s.length) '0' ++ s.data)

/-- Proleptic-Gregorian civil date `(year, month, day)` of a day count
since 1970-01-01. -/
def civilFromDays (days : Nat) : Nat × Nat × Nat :=
  let z := days + 719468
  let era := z / 146097
  let doe := z % 146097
  let yoe := (doe - doe / 1460 + doe / 36524 - doe / 146096) / 365
  let y := yoe + era * 400
  let doy := doe - (365 * yoe + yoe / 4 - yoe / 100)
  let mp := (5 * doy + 2) / 153
  let d := doy - (153 * mp + 2) / 5 + 1
  let m := if mp < 10 then mp + 3 else mp - 9
  if m ≤ 2 then (y + 1, m, d) else (y, m, d)

/-- Modelled from the spec: the `YYYY-MM-DD-HHMMSS` name of a commit
whose author timestamp is `t` seconds after the epoch (local time taken
as UTC, as in the spec's scenarios). -/
def fmtTime (t : Nat) : String :=
  let c := civilFromDays (t / 86400)
  let secs := t % 86400
  padNum 4 c.1 ++ dashStr ++ padNum 2 c.2.1 ++ dashStr ++ padNum 2 c.2.2 ++
    dashStr ++ padNum 2 (secs / 3600) ++ padNum 2 (secs % 3600 / 60) ++
    padNum 2 (secs % 60)

/-- Modelled from the spec: the expansion of one maximal run — a single
occurrence is kept, a run of `n` equal names `x` becomes `x-(n-1) … x-0`
zero-padded to the width of `n-1`. -/
def expandRun (x : String) (n : Nat) : List String :=
  if n == 1 then [x]
  else
    let w := (Nat.repr (n - 1)).length
    (List.range n).reverse.map fun i => x ++ dashStr ++ padNum w i

/-- Accumulator for `_reverse_suffix_duplicates`: `x` seen `n` times so
far, rest of the input still to scan. -/
def rsdAux (x : String) (n : Nat) : List String → List String
  | [] => expandRun x n
  | y :: ys =>
    if y == x then rsdAux x (n + 1) ys
    else expandRun x n ++ rsdAux y 1 ys

/-- Modelled from the spec: `_reverse_suffix_duplicates` — group the
input into maximal runs of adjacent equal names and expand each run with
the reverse-numbered, zero-padded suffix. -/
def _reverse_suffix_duplicates : List String → List String
  | [] => []
  | x :: xs => rsdAux x 1 xs

/-- Split a character list at every occurrence of `sep` (the pieces do
not contain `sep`; `n` separators give `n+1` pieces). -/
def splitOnChar (sep : Char) : List Char → List (List Char)
  | [] => [[]]
  | x :: xs =>
    if x == sep then [] :: splitOnChar sep xs
    else
      match splitOnChar sep xs with
      | [] => [[x]]
      | y :: ys => (x :: y) :: ys

/-- Modelled from the spec: the non-trivial components of a path — the
slash-separated pieces with empty pieces and `.` dropped. -/
def pathCompsData (p : List Char) : List (List Char) :=
  (splitOnChar '/' p).filter fun c => !c.isEmpty && c != [ '.' ]

/-- The non-trivial components of a path, as strings. -/
def pathComps (p : String) : List String := (pathCompsData p.data).map String.mk

/-- Whether a path is anchored at the root. -/
def strIsAbs (p : String) : Bool :=
  match p.data with
  | [] => false
  | a :: _ => a == '/'

/-- Whether a path's spelling forces its result to be a directory: it
ends in a slash or in a trailing `.` component. -/
def mustDirData (cs : List Char) : Bool :=
  match cs.reverse with
  | [] => false
  | a :: rest =>
    if a == '/' then true
    else if a == '.' then
      match rest with
      | b :: _ => b == '/'
      | [] => false
    else false

/-- Modelled from the spec: decompose a path into (is-absolute,
must-treat-as-dir, components); empty components and `.` are no-ops, an
effectively empty path also forces directory treatment. -/
def decompose_path (p : String) : Bool × Bool × List String :=
  let comps := pathComps p
  (strIsAbs p, mustDirData p.data || comps.isEmpty, comps)

/-- A single plain path component: non-empty, slash-free and neither `.`
nor `..`. -/
def plainComp (c : String) : Bool :=
  !c.data.isEmpty && c.data.all (fun ch => ch != '/') &&
    c.data != [ '.' ] && c.data != [ '.', '.' ]

/-- One entry of a resolution chain: a name and the item it resolved to
(`none` when the final component does not exist). -/
abbrev ChainEnt := String × Option Item

/-- A resolution chain, root first. -/
abbrev Chain := List ChainEnt

/-- The item at the tail of a chain. -/
def tailItem (c : Chain) : Option Item :=
  match c.getLast? with
  | some e => e.2
  | none => none

/-- Pop the tail of a chain, clamped at the root. -/
def popChain (c : Chain) : Chain :=
  if c.length ≤ 1 then c else c.dropLast

/-- The chain a resolution starts from at the root. -/
def rootChain : Chain := [(emptyStr, some Item.root)]

/-- Whether an optional item can be traversed as a directory. -/
def dirLike (i : Option Item) : Bool :=
  match i with
  | none => false
  | some it => S_ISDIR (item_mode it)

/-- Look a name up in a directory listing. -/
def lookupEnt (lst : List (String × Item)) (name : String) : Option Item :=
  (lst.find? fun e => e.1 == name).map (·.2)

/-- The names along a chain (used to describe an error's terminus). -/
def chainNames (c : Chain) : List String := c.map (·.1)

/-- A full metadata record with its size forced to zero. -/
def withSizeZero (md : Metadata) : Metadata := { md with size := some 0 }

/-- Modelled from the spec: the metadata a directory's listing gives its
`.` entry — the first record of the tree's metadata stream with the size
field zeroed, or the bare default directory mode when the stream is
absent.  (The zeroed size is pinned by the repository's test suite,
which cross-checks the VFS listing against `tree_items`.) -/
def treeDotMeta (r : Repo) (toid : Oid) : Option Meta :=
  (r.tree toid).map fun t =>
    match t.bupm with
    | some (m0 :: _) => Meta.full (withSizeZero m0)
    | _ => Meta.mode default_dir_mode

/-- Modelled from the spec: the metadata a commit item carries — its
tree's own `.` metadata. -/
def commitTreeDotMeta (r : Repo) (coid : Oid) : Option Meta :=
  (r.commitAt coid).bind fun co => treeDotMeta r co.tree

/-- The default placeholder mode of a tree entry without a metadata
record, chosen by its git mode. -/
def defaultModeFor (gitmode : Nat) : Nat :=
  if S_ISLNK gitmode then default_symlink_mode else default_file_mode

/-- Modelled from the spec: translate decoded tree entries into listing
entries, consuming one metadata record per non-directory (and chunked)
entry in order; plain subdirectories keep the bare default directory
mode. -/
def treeWalk : List TreeEntry → List Metadata → List (String × Item)
  | [], _ => []
  | e :: es, recs =>
    if S_ISDIR e.gitmode then
      if e.kind == Kind.chunkedK then
        match recs with
        | m :: ms => (e.name, Item.chunked e.oid (Meta.full m)) :: treeWalk es ms
        | [] =>
          (e.name, Item.chunked e.oid (Meta.mode default_file_mode)) ::
            treeWalk es []
      else (e.name, Item.item e.oid (Meta.mode default_dir_mode)) :: treeWalk es recs
    else
      match recs with
      | m :: ms => (e.name, Item.item e.oid (Meta.full m)) :: treeWalk es ms
      | [] =>
        (e.name, Item.item e.oid (Meta.mode (defaultModeFor e.gitmode))) ::
          treeWalk es []

/-- Modelled from the spec: the listing of a stored tree — a `.` entry
carrying the tree's own metadata followed by one entry per tree entry. -/
def treeItemsVfs (r : Repo) (oid : Oid) : Option (List (String × Item)) :=
  (r.tree oid).map fun t =>
    let dotm :=
      match t.bupm with
      | some (m0 :: _) => Meta.full (withSizeZero m0)
      | _ => Meta.mode default_dir_mode
    let recs :=
      match t.bupm with
      | some (_ :: ms) => ms
      | _ => []
    (dotStr, Item.item oid dotm) :: treeWalk t.entries recs

/-- One row of the test suite's cross-check listing: name, entry oid and
the meta the test helper records (`none` where the helper's metadata
reader is exhausted or absent). -/
structure TreeDictValue where
  name : String
  oid : Oid
  meta : Option Meta
deriving DecidableEq, Repr

/-- The entry loop of the test helper `tree_items` of `tvfs.py`: plain
subdirectories yield the bare default directory mode and consume no
record; every other entry pulls the next metadata record (or `none` when
the stream has run out). -/
def helperWalk : List TreeEntry → List Metadata → List TreeDictValue
  | [], _ => []
  | e :: es, recs =>
    if S_ISDIR e.gitmode then
      if e.kind == Kind.chunkedK then
        match recs with
        | m :: ms => ⟨e.name, e.oid, some (Meta.full m)⟩ :: helperWalk es ms
        | [] => ⟨e.name, e.oid, none⟩ :: helperWalk es []
      else ⟨e.name, e.oid, some (Meta.mode default_dir_mode)⟩ :: helperWalk es recs
    else
      match recs with
      | m :: ms => ⟨e.name, e.oid, some (Meta.full m)⟩ :: helperWalk es ms
      | [] => ⟨e.name, e.oid, none⟩ :: helperWalk es []

/-- The test helper `tree_items` of `tvfs.py`, translated at the decoded
level: the first metadata record describes `.` and has its size forced
to 0; the remaining records are consumed in entry order. -/
def tree_items (r : Repo) (oid : Oid) : Option (List TreeDictValue) :=
  (r.tree oid).map fun t =>
    let dotm : Option Meta :=
      match t.bupm with
      | some (m0 :: _) => some (Meta.full (withSizeZero m0))
      | _ => none
    let recs :=
      match t.bupm with
      | some (_ :: ms) => ms
      | _ => []
    ⟨dotStr, oid, dotm⟩ :: helperWalk t.entries recs

/-- Modelled from the spec: the root listing — `.`, the tag directory
and one revision-list entry per branch, carrying the branch tip's tree
metadata. -/
def rootItems (r : Repo) : Option (List (String × Item)) :=
  (r.branches.mapM fun be =>
      (commitTreeDotMeta r be.2).map fun m => (be.1, Item.revList be.2 m)).map
    fun bs => (dotStr, Item.root) :: (tagDirName, Item.tags) :: bs

/-- Modelled from the spec: the tag directory listing — `.` and one
commit item per tag ref (bare default directory mode, as the test suite
pins). -/
def tagsItems (r : Repo) : Option (List (String × Item)) :=
  (r.tags.mapM fun te =>
      (r.commitAt te.2).map fun co =>
        (te.1, Item.commit co.tree te.2 (Meta.mode default_dir_mode))).map
    fun ts => (dotStr, Item.tags) :: ts

/-- The first-parent chain of commits from a tip, newest first; fuel
bounds the walk (it exceeds the store's commit count, so only a broken
cyclic store exhausts it). -/
def firstParents (r : Repo) : Nat → Oid → Option (List (Oid × CommitObj))
  | 0, _ => none
  | fuel + 1, coid =>
    (r.commitAt coid).bind fun co =>
      match co.parent with
      | none => some [(coid, co)]
      | some p => (firstParents r fuel p).map fun rest => (coid, co) :: rest

/-- Modelled from the spec: the revision-list directory of a branch —
`.`, one timestamped entry per commit on the first-parent chain with
duplicate names disambiguated by `_reverse_suffix_duplicates`, and a
`latest` entry for the tip. -/
def revListItems (r : Repo) (tip : Oid) (selfMeta : Meta) :
    Option (List (String × Item)) :=
  (firstParents r (r.commits.length + 1) tip).bind fun chain =>
    (chain.mapM fun ce =>
        (treeDotMeta r ce.2.tree).map fun m => Item.commit ce.2.tree ce.1 m).bind
      fun items =>
        let names :=
          _reverse_suffix_duplicates (chain.map fun ce => fmtTime ce.2.author_sec)
        items.head?.map fun tipIt =>
          (dotStr, Item.revList tip selfMeta) ::
            (names.zip items ++ [(latestStr, tipIt)])

/-- Modelled from the spec: `contents` — the listing of a directory-like
item, dispatched on its variant; non-directories have none. -/
def contents (r : Repo) (i : Item) : Option (List (String × Item)) :=
  match i with
  | .root => rootItems r
  | .tags => tagsItems r
  | .revList tip m => revListItems r tip m
  | .commit toid _ _ => treeItemsVfs r toid
  | .item oid m => if S_ISDIR (metaMode m) then treeItemsVfs r oid else none
  | .chunked _ _ => none
  | .fakeLink _ _ => none

/-- The outcome of a path resolution: a chain, a structured error with
its terminus, a store failure, or fuel exhaustion (never reached with
the generous fuel `resolve` supplies). -/
inductive RRes
  | ok (chain : Chain)
  | notDir (terminus : Option Chain)
  | tooMany (terminus : Option Chain)
  | storeErr
  | fuelOut
deriving DecidableEq, Repr

/-- The recorded symlink-target length of one metadata record. -/
def mdTargetLen (md : Metadata) : Nat :=
  match md.symlink_target with
  | some t => t.length
  | none => 0

/-- An upper bound on the length of any symlink target the store can
produce, used to size the resolver's fuel. -/
def maxTargetLen (r : Repo) : Nat :=
  ((r.blobs.map fun be => be.2.length) ++
      (r.trees.map fun te =>
          match te.2.bupm with
          | some ms => ms.map mdTargetLen
          | none => []).flatten).foldr Nat.max 0

/-- Fuel for the resolver loop: enough for every component of the path
plus every component any chain of up to the 100 permitted symlink
expansions can splice in. -/
def resolveFuel (r : Repo) (p : String) : Nat :=
  p.length + 102 * (maxTargetLen r + 2)

/-- Modelled from the spec: the resolver loop.  Each step consumes one
component: `..` pops (clamped at the root) after the directory check; a
name is looked up in the current directory's listing, a missing final
component is returned as a `none` tail while a missing intermediate one
fails with `NotADirectory`; a symlink is followed — budget permitting —
when it is not last, or under `resolve`, or when a trailing slash forces
directory interpretation, by splicing its target's components into the
remaining path. -/
def walk (r : Repo) (deref must_dir : Bool) :
    Nat → Nat → Chain → List String → RRes
  | 0, _, _, _ => .fuelOut
  | _ + 1, _, chain, [] =>
    if must_dir && !(dirLike (tailItem chain)) then .notDir (some chain)
    else .ok chain
  | fuel + 1, budget, chain, c :: rest =>
    if c == dotdotStr then
      if dirLike (tailItem chain) then
        walk r deref must_dir fuel budget (popChain chain) rest
      else .notDir (some chain)
    else
      match tailItem chain with
      | none => .notDir (some chain)
      | some tailIt =>
        if S_ISDIR (item_mode tailIt) then
          match contents r tailIt with
          | none => .storeErr
          | some lst =>
            match lookupEnt lst c with
            | none =>
              if rest.isEmpty then .ok (chain ++ [(c, none)])
              else .notDir (some (chain ++ [(c, none)]))
            | some it =>
              if S_ISLNK (item_mode it) && (!rest.isEmpty || deref || must_dir)
              then
                if budget == 0 then .tooMany (some (chain ++ [(c, some it)]))
                else
                  match readlink r it with
                  | none => .storeErr
                  | some tgt =>
                    let tcomps := pathComps tgt
                    if strIsAbs tgt then
                      walk r deref must_dir fuel (budget - 1) rootChain
                        (tcomps ++ rest)
                    else
                      walk r deref must_dir fuel (budget - 1) chain
                        (tcomps ++ rest)
              else walk r deref must_dir fuel budget (chain ++ [(c, some it)]) rest
        else .notDir (some chain)

/-- Modelled from the spec: the shared resolver entry point — check a
provided parent ends in a directory (else `NotADirectory` with no
terminus), anchor at the root or at the parent, and run the loop with a
symlink budget of 100. -/
def _resolve_path (r : Repo) (p : String) (parent : Option Chain)
    (deref : Bool) : RRes :=
  let badParent :=
    match parent with
    | some par => !(dirLike (tailItem par))
    | none => false
  if badParent then .notDir none
  else
    let d := decompose_path p
    let start : Chain :=
      if d.1 then rootChain
      else
        match parent with
        | some par => par
        | none => rootChain
    walk r deref d.2.1 (resolveFuel r p) 100 start d.2.2

/-- Modelled from the spec: `resolve` follows symlinks on every
component including the last. -/
def resolve (r : Repo) (p : String) (parent : Option Chain) : RRes :=
  _resolve_path r p parent true

/-- Modelled from the spec: `lresolve` follows symlinks on every
intermediate component but not a trailing one (unless a trailing slash
forces directory interpretation). -/
def lresolve (r : Repo) (p : String) (parent : Option Chain) : RRes :=
  _resolve_path r p parent false

/-- Byte-wise (code-point-wise) lexicographic comparison on strings. -/
def strLeData : List Char → List Char → Bool
  | [], _ => true
  | _ :: _, [] => false
  | a :: as, b :: bs =>
    if a.toNat < b.toNat then true
    else if b.toNat < a.toNat then false
    else strLeData as bs

/-- Lexicographic order on strings used to present sorted listings. -/
def strLe (a b : String) : Bool := strLeData a.data b.data

/-- Insert a name into a sorted list of names. -/
def insertName (s : String) : List String → List String
  | [] => [s]
  | x :: xs => if strLe s x then s :: x :: xs else x :: insertName s xs

/-- Sort a list of names (insertion sort under `strLe`). -/
def sortNames (l : List String) : List String := l.foldr insertName []

/-- The `.` metadata record the `test_resolve` scenario's saved tree
carries in its metadata stream (a nonzero stored size, so the listing's
zeroing of it is observable). -/
def mdDotA : Metadata := ⟨16877, 0, 0, 0, 0, 0, none, some 7⟩

/-- The `.` record of the scenario's `dir` subtree. -/
def mdDirDot : Metadata := ⟨16877, 0, 0, 0, 0, 0, none, some 5⟩

/-- Metadata of `bad-symlink → not-there`. -/
def mdBad : Metadata := ⟨41471, 0, 0, 0, 0, 0, some "not-there", some 9⟩

/-- Metadata of `dir-symlink → dir`. -/
def mdDirLink : Metadata := ⟨41471, 0, 0, 0, 0, 0, some "dir", some 3⟩

/-- Metadata of the regular file `file` (content `canary` and a
newline). -/
def mdFileA : Metadata := ⟨33188, 0, 0, 0, 0, 0, none, some 7⟩

/-- Metadata of `file-symlink → file`. -/
def mdFileLink : Metadata := ⟨41471, 0, 0, 0, 0, 0, some "file", some 4⟩

/-- The `test_resolve` scenario store: branch `test` with one save of a
tree holding `dir/`, `file`, `file-symlink → file`, `dir-symlink → dir`
and `bad-symlink → not-there`, plus a `test-tag` tag. -/
def repoA : Repo :=
  ⟨[(4, "canary\n"), (5, "file"), (6, "dir"), (7, "not-there")],
   [(2, ⟨[⟨"bad-symlink", .normal, 40960, 7⟩,
          ⟨"dir", .dirKind, 16384, 3⟩,
          ⟨"dir-symlink", .normal, 40960, 6⟩,
          ⟨"file", .normal, 33188, 4⟩,
          ⟨"file-symlink", .normal, 40960, 5⟩],
         some [mdDotA, mdBad, mdDirLink, mdFileA, mdFileLink]⟩),
    (3, ⟨[], some [mdDirDot]⟩)],
   [("test", 1)],
   [("test-tag", 1)],
   [(1, ⟨2, 100000, none⟩)]⟩

/-- The scenario tree's `.` metadata as the VFS presents it: stored
record with size zeroed. -/
def dotA0 : Metadata := withSizeZero mdDotA

/-- The revision-list item for branch `test` in the scenario. -/
def rvA : Item := Item.revList 1 (Meta.full dotA0)

/-- The commit item for the scenario's single save. -/
def cmA : Item := Item.commit 2 1 (Meta.full dotA0)

/-- The chain `resolve` produces for `/test/latest` in the scenario. -/
def latestChainA : Chain :=
  [(emptyStr, some Item.root), ("test", some rvA), (latestStr, some cmA)]

/-- The `.` record of the symlink-loop scenario's tree. -/
def mdDotB : Metadata := ⟨16877, 0, 0, 0, 0, 0, none, some 0⟩

/-- Metadata of `loop → loop`. -/
def mdLoop : Metadata := ⟨41471, 0, 0, 0, 0, 0, some "loop", some 4⟩

/-- The `test_resolve_loop` scenario store: branch `test` with one save
of a tree holding only `loop → loop`. -/
def repoLoop : Repo :=
  ⟨[(3, "loop")],
   [(2, ⟨[⟨"loop", .normal, 40960, 3⟩], some [mdDotB, mdLoop]⟩)],
   [("test", 1)],
   [],
   [(1, ⟨2, 100000, none⟩)]⟩

/-- The loop scenario's revision-list item. -/
def rvLoop : Item := Item.revList 1 (Meta.full mdDotB)

/-- The loop scenario's commit item. -/
def cmLoop : Item := Item.commit 2 1 (Meta.full mdDotB)

/-- The chain through `/test/latest` in the loop scenario. -/
def latestChainLoop : Chain :=
  [(emptyStr, some Item.root), ("test", some rvLoop), (latestStr, some cmLoop)]

/-- The symlink item for `loop` in the loop scenario. -/
def loopLinkItem : Item := Item.item 3 (Meta.full mdLoop)

/-- The commits of the duplicate-save-dates scenario: eleven saves of
the same tree, every author timestamp 100000, chained first-parent. -/
def commitsC : List (Oid × CommitObj) :=
  (List.range 11).map fun k =>
    (k + 1, ⟨20, 100000, if k == 0 then none else some k⟩)

/-- The `test_duplicate_save_dates` scenario store: branch `test` at the
eleventh save. -/
def repoC : Repo :=
  ⟨[(21, "canary\n")],
   [(20, ⟨[⟨"file", .normal, 33188, 21⟩],
          some [⟨16877, 0, 0, 0, 0, 0, none, some 0⟩,
                ⟨33188, 0, 0, 0, 0, 0, none, some 7⟩]⟩)],
   [("test", 11)],
   [],
   commitsC⟩

/-- The revision-list item for branch `test` in the duplicate-dates
scenario. -/
def rvC : Item :=
  Item.revList 11 (Meta.full ⟨16877, 0, 0, 0, 0, 0, none, some 0⟩)

/-- An optional lookup result that is not a symlink (vacuously true when
absent); the decidable side condition of the final-symlink theorem. -/
def nonSymlinkOpt (tgt : Option Item) : Bool :=
  match tgt with
  | some j => !(S_ISLNK (item_mode j))
  | none => true

/-- A trailing slash-dot suffix, the second spelling that forces
directory interpretation. -/
def slashDotStr : String := "/."

/-- A trailing slash-dotdot suffix. -/
def slashDotDotStr : String := "/.."

/-- The item the scenario's `file` entry resolves to. -/
def fileItA : Item := Item.item 4 (Meta.full mdFileA)

/-- The scenario's `file-symlink` item. -/
def linkItA : Item := Item.item 5 (Meta.full mdFileLink)

/-- The scenario's `bad-symlink` item. -/
def badLinkItA : Item := Item.item 7 (Meta.full mdBad)

/-- The scenario's file metadata with a deliberately wrong stored size,
exercising the no-read shortcut of `item_size`. -/
def md42A : Metadata := ⟨33188, 0, 0, 0, 0, 0, none, some 42⟩

/-- The scenario's `file` item carrying the wrong stored size. -/
def fake42 : Item := Item.item 4 (Meta.full md42A)

/-- A symlink item whose full metadata already has a size but no
recorded target: the augmenter returns it untouched. -/
def badLink : Item := Item.item 99 (Meta.full ⟨41471, 0, 0, 0, 0, 0, none, some 5⟩)

/-- A store with no objects at all. -/
def emptyRepo : Repo := ⟨[], [], [], [], []⟩

/-- The scenario's `file-symlink` object with only its bare mode. -/
def linkBareA : Item := Item.item 5 (Meta.mode 41471)

/-- What augmenting `linkBareA` produces: full metadata with the target
read from the blob and the size set to its length. -/
def linkAugA : Item :=
  Item.item 5 (Meta.full ⟨41471, 0, 0, 0, 0, 0, some "file", some 4⟩)

/-- A mode with regular-file format bits is not directory-format. -/
theorem isreg_not_isdir (m : Nat) (h : S_ISREG m = true) : S_ISDIR m = false := by
  simp only [S_ISREG, beq_iff_eq] at h
  simp only [S_ISDIR, h]
  decide

/-- A mode with regular-file format bits is not symlink-format. -/
theorem isreg_not_islnk (m : Nat) (h : S_ISREG m = true) : S_ISLNK m = false := by
  simp only [S_ISREG, beq_iff_eq] at h
  simp only [S_ISLNK, h]
  decide

/-- Replacing the meta of an item that has one yields an item carrying
exactly the replacement. -/
theorem meta?_withMeta (i : Item) (me : Meta) (h : i.meta? = some me)
    (m : Meta) : (i.withMeta m).meta? = some m := by
  cases i <;> simp_all [Item.meta?, Item.withMeta]

/-- The tail item of a chain extended by one entry. -/
theorem tailItem_concat (ch : Chain) (e : ChainEnt) :
    tailItem (ch ++ [e]) = e.2 := by
  simp [tailItem, List.getLast?_concat]

/-- The resolver's fuel always covers the whole symlink budget and the
handful of loop steps the theorems below unfold. -/
theorem resolveFuel_big (r : Repo) (p : String) : 104 ≤ resolveFuel r p := by
  unfold resolveFuel
  omega

/-- What `plainComp` guarantees about a component's characters. -/
theorem plainComp_parts (c : String) (h : plainComp c = true) :
    c.data ≠ [] ∧ (∀ x ∈ c.data, x ≠ '/') ∧ c.data ≠ [ '.' ] ∧
      c.data ≠ [ '.', '.' ] := by
  simp only [plainComp, Bool.and_eq_true, List.all_eq_true] at h
  obtain ⟨⟨⟨h1, h2⟩, h3⟩, h4⟩ := h
  refine ⟨by simpa using h1, fun x hx => by simpa using h2 x hx,
    by simpa using h3, by simpa using h4⟩

/-- A plain component is not the `..` token. -/
theorem plainComp_ne_dotdot (c : String) (h : plainComp c = true) :
    (c == dotdotStr) = false := by
  have h4 := (plainComp_parts c h).2.2.2
  apply beq_eq_false_iff_ne.mpr
  intro he
  exact h4 (by rw [he]; rfl)

/-- Splitting a list free of the separator returns it whole. -/
theorem splitOnChar_no_sep (sep : Char) (cs : List Char)
    (h : ∀ x ∈ cs, x ≠ sep) : splitOnChar sep cs = [cs] := by
  induction cs with
  | nil => rfl
  | cons x xs ih =>
    have hx : (x == sep) = false :=
      beq_eq_false_iff_ne.mpr (h x (List.mem_cons_self x xs))
    have hxs := ih fun y hy => h y (List.mem_cons_of_mem _ hy)
    simp [splitOnChar, hx, hxs]

/-- Splitting at the first separator detaches the separator-free head. -/
theorem splitOnChar_append (sep : Char) (xs ys : List Char)
    (h : ∀ x ∈ xs, x ≠ sep) :
    splitOnChar sep (xs ++ sep :: ys) = xs :: splitOnChar sep ys := by
  induction xs with
  | nil => simp [splitOnChar]
  | cons a as ih =>
    have ha : (a == sep) = false :=
      beq_eq_false_iff_ne.mpr (h a (List.mem_cons_self a as))
    have has := ih fun y hy => h y (List.mem_cons_of_mem _ hy)
    simp [splitOnChar, ha, has]

/-- A split never produces an empty list of pieces. -/
theorem splitOnChar_ne_nil (sep : Char) (cs : List Char) :
    splitOnChar sep cs ≠ [] := by
  cases cs with
  | nil => simp [splitOnChar]
  | cons x xs =>
    cases hx : (x == sep) with
    | true => simp [splitOnChar, hx]
    | false =>
      cases hs : splitOnChar sep xs <;> simp [splitOnChar, hx, hs]

/-- The goodness test of `pathCompsData` holds for a nonempty non-`.`
piece. -/
theorem goodComp_true (cs : List Char) (hne : cs ≠ []) (hdot : cs ≠ [ '.' ]) :
    (!cs.isEmpty && cs != [ '.' ]) = true := by
  have h1 : cs.isEmpty = false := by simpa using hne
  simp [h1, bne_iff_ne, hdot]

/-- The identity `String.mk s.data = s`. -/
theorem mk_data (s : String) : String.mk s.data = s := rfl

/-- A plain component is its own component list. -/
theorem pathComps_plain (c : String) (h : plainComp c = true) :
    pathComps c = [c] := by
  obtain ⟨h1, h2, h3, _⟩ := plainComp_parts c h
  have hs := splitOnChar_no_sep '/' c.data h2
  have hg := goodComp_true c.data h1 h3
  simp [pathComps, pathCompsData, hs, hg, mk_data]

/-- A path whose first character is not a slash is not absolute. -/
theorem strIsAbs_eq_false_of_data (s : String) (a : Char) (t : List Char)
    (hdata : s.data = a :: t) (ha : a ≠ '/') : strIsAbs s = false := by
  have hb : (a == '/') = false := beq_eq_false_iff_ne.mpr ha
  simp [strIsAbs, hdata, hb]

/-- A plain component starts with a non-slash character. -/
theorem plainComp_head (c : String) (h : plainComp c = true) :
    ∃ a t, c.data = a :: t ∧ a ≠ '/' := by
  obtain ⟨h1, h2, _, _⟩ := plainComp_parts c h
  rcases List.exists_cons_of_ne_nil h1 with ⟨a, t, hat⟩
  exact ⟨a, t, hat, h2 a (by rw [hat]; exact List.mem_cons_self a t)⟩

/-- A string whose characters end in a plain component never demands
directory treatment. -/
theorem mustDirData_plain_suffix (zs : List Char) (w : String)
    (h : plainComp w = true) : mustDirData (zs ++ w.data) = false := by
  obtain ⟨h1, h2, h3, _⟩ := plainComp_parts w h
  rcases List.exists_cons_of_ne_nil (show w.data.reverse ≠ [] by simpa using h1)
    with ⟨a, t, hat⟩
  have haw : a ∈ w.data :=
    List.mem_reverse.mp (by rw [hat]; exact List.mem_cons_self a t)
  have ha : (a == '/') = false := beq_eq_false_iff_ne.mpr (h2 a haw)
  have hrev : (zs ++ w.data).reverse = a :: (t ++ zs.reverse) := by
    rw [List.reverse_append, hat]; rfl
  unfold mustDirData
  rw [hrev]
  simp only [ha, Bool.false_eq_true, if_false]
  cases hadot : (a == '.') with
  | false => simp
  | true =>
    simp only [if_true]
    cases t with
    | nil =>
      exfalso
      apply h3
      have : w.data.reverse = [ '.' ] := by
        rw [hat]
        have : a = '.' := by simpa using hadot
        rw [this]
      calc w.data = w.data.reverse.reverse := by rw [List.reverse_reverse]
        _ = [ '.' ] := by rw [this]; rfl
    | cons b t' =>
      have hbw : b ∈ w.data := by
        apply List.mem_reverse.mp
        rw [hat]
        exact List.mem_cons_of_mem _ (List.mem_cons_self b t')
      have hb : (b == '/') = false := beq_eq_false_iff_ne.mpr (h2 b hbw)
      simp [hb]

/-- Decomposition of a single plain component. -/
theorem decompose_plainc (c : String) (h : plainComp c = true) :
    decompose_path c = (false, false, [c]) := by
  have hp := pathComps_plain c h
  rcases plainComp_head c h with ⟨a, t, hat, ha⟩
  have habs : strIsAbs c = false := strIsAbs_eq_false_of_data c a t hat ha
  have hmd : mustDirData c.data = false := by
    have := mustDirData_plain_suffix [] c h
    simpa using this
  simp [decompose_path, hp, habs, hmd]

/-- Decomposition of a plain component with a trailing slash. -/
theorem decompose_slash (c : String) (h : plainComp c = true) :
    decompose_path (c ++ slashStr) = (false, true, [c]) := by
  obtain ⟨h1, h2, h3, _⟩ := plainComp_parts c h
  have hdata : (c ++ slashStr).data = c.data ++ [ '/' ] := by
    rw [String.data_append]; rfl
  have hsplit : splitOnChar '/' (c.data ++ [ '/' ]) = [c.data, []] := by
    have := splitOnChar_append '/' c.data [] h2
    simpa [splitOnChar] using this
  have hempty : (!([] : List Char).isEmpty && ([] : List Char) != [ '.' ]) = false := by
    decide
  have hcomps : pathComps (c ++ slashStr) = [c] := by
    simp [pathComps, pathCompsData, hdata, hsplit,
      goodComp_true c.data h1 h3, hempty, mk_data]
  rcases plainComp_head c h with ⟨a, t, hat, ha⟩
  have habs : strIsAbs (c ++ slashStr) = false := by
    apply strIsAbs_eq_false_of_data _ a (t ++ [ '/' ]) _ ha
    rw [hdata, hat]; rfl
  have hmd : mustDirData (c.data ++ [ '/' ]) = true := by
    unfold mustDirData
    rw [List.reverse_append]
    simp
  have hsd : slashStr.data = [ '/' ] := rfl
  simp [decompose_path, hcomps, habs, hmd, hsd]

/-- Decomposition of a plain component with a trailing `/.`. -/
theorem decompose_slashdot (c : String) (h : plainComp c = true) :
    decompose_path (c ++ slashDotStr) = (false, true, [c]) := by
  obtain ⟨h1, h2, h3, _⟩ := plainComp_parts c h
  have hdata : (c ++ slashDotStr).data = c.data ++ ( '/' :: [ '.' ]) := by
    rw [String.data_append]; rfl
  have hsplit : splitOnChar '/' (c.data ++ ( '/' :: [ '.' ])) =
      [c.data, [ '.' ]] := by
    have := splitOnChar_append '/' c.data [ '.' ] h2
    rw [this]
    have hdot : splitOnChar '/' [ '.' ] = [[ '.' ]] := by decide
    rw [hdot]
  have hdot1 : (!([ '.' ] : List Char).isEmpty && [ '.' ] != [ '.' ]) = false := by
    decide
  have hcomps : pathComps (c ++ slashDotStr) = [c] := by
    simp [pathComps, pathCompsData, hdata, hsplit,
      goodComp_true c.data h1 h3, hdot1, mk_data]
  rcases plainComp_head c h with ⟨a, t, hat, ha⟩
  have habs : strIsAbs (c ++ slashDotStr) = false := by
    apply strIsAbs_eq_false_of_data _ a (t ++ ( '/' :: [ '.' ])) _ ha
    rw [hdata, hat]; rfl
  have e1 : (( '.' : Char) == '/') = false := by decide
  have e2 : (( '.' : Char) == '.') = true := by decide
  have e3 : (( '/' : Char) == '/') = true := by decide
  have hmd : mustDirData (c.data ++ ( '/' :: [ '.' ])) = true := by
    unfold mustDirData
    rw [List.reverse_append]
    simp [e1, e2, e3]
  have hsd : slashDotStr.data = ( '/' :: [ '.' ]) := rfl
  simp [decompose_path, hcomps, habs, hmd, hsd]

/-- Decomposition of a plain component with a trailing `/..`: the `..`
stays a component and directory treatment is not forced. -/
theorem decompose_slashdotdot (c : String) (h : plainComp c = true) :
    decompose_path (c ++ slashDotDotStr) = (false, false, [c, dotdotStr]) := by
  obtain ⟨h1, h2, h3, _⟩ := plainComp_parts c h
  have hdata : (c ++ slashDotDotStr).data = c.data ++ ( '/' :: [ '.', '.' ]) := by
    rw [String.data_append]; rfl
  have hsplit : splitOnChar '/' (c.data ++ ( '/' :: [ '.', '.' ])) =
      [c.data, [ '.', '.' ]] := by
    have := splitOnChar_append '/' c.data [ '.', '.' ] h2
    rw [this]
    have hdd : splitOnChar '/' [ '.', '.' ] = [[ '.', '.' ]] := by decide
    rw [hdd]
  have hdd1 : (!([ '.', '.' ] : List Char).isEmpty &&
      [ '.', '.' ] != [ '.' ]) = true := by decide
  have hmkdd : String.mk [ '.', '.' ] = dotdotStr := rfl
  have hcomps : pathComps (c ++ slashDotDotStr) = [c, dotdotStr] := by
    simp [pathComps, pathCompsData, hdata, hsplit,
      goodComp_true c.data h1 h3, hdd1, mk_data, hmkdd]
  rcases plainComp_head c h with ⟨a, t, hat, ha⟩
  have habs : strIsAbs (c ++ slashDotDotStr) = false := by
    apply strIsAbs_eq_false_of_data _ a (t ++ ( '/' :: [ '.', '.' ])) _ ha
    rw [hdata, hat]; rfl
  have e1 : (( '.' : Char) == '/') = false := by decide
  have e2 : (( '.' : Char) == '.') = true := by decide
  have hmd : mustDirData (c.data ++ ( '/' :: [ '.', '.' ])) = false := by
    unfold mustDirData
    rw [List.reverse_append]
    simp [e1, e2]
  have hsd : slashDotDotStr.data = ( '/' :: [ '.', '.' ]) := rfl
  simp [decompose_path, hcomps, habs, hmd, hsd]

/-- Decomposition of two plain components joined by a slash. -/
theorem decompose_two (c w : String) (hc : plainComp c = true)
    (hw : plainComp w = true) :
    decompose_path (c ++ slashStr ++ w) = (false, false, [c, w]) := by
  obtain ⟨h1, h2, h3, _⟩ := plainComp_parts c hc
  obtain ⟨g1, g2, g3, _⟩ := plainComp_parts w hw
  have hdata : (c ++ slashStr ++ w).data = c.data ++ ( '/' :: w.data) := by
    rw [String.data_append, String.data_append]
    simp [slashStr]
  have hsplit : splitOnChar '/' (c.data ++ ( '/' :: w.data)) =
      [c.data, w.data] := by
    have := splitOnChar_append '/' c.data w.data h2
    rw [this, splitOnChar_no_sep '/' w.data g2]
  have hcomps : pathComps (c ++ slashStr ++ w) = [c, w] := by
    simp [pathComps, pathCompsData, hdata, hsplit,
      goodComp_true c.data h1 h3, goodComp_true w.data g1 g3, mk_data]
  rcases plainComp_head c hc with ⟨a, t, hat, ha⟩
  have habs : strIsAbs (c ++ slashStr ++ w) = false := by
    apply strIsAbs_eq_false_of_data _ a (t ++ ( '/' :: w.data)) _ ha
    rw [hdata, hat]; rfl
  have hmd : mustDirData (c.data ++ ( '/' :: w.data)) = false := by
    have hzs : c.data ++ ( '/' :: w.data) = (c.data ++ [ '/' ]) ++ w.data := by
      simp
    rw [hzs]
    exact mustDirData_plain_suffix (c.data ++ [ '/' ]) w hw
  have hsd : slashStr.data = [ '/' ] := rfl
  simp [decompose_path, hcomps, habs, hmd, hsd]

/-- A chain whose tail is a known directory item is directory-like. -/
theorem dirLike_of (par : Chain) (d : Item) (hpar : tailItem par = some d)
    (hd : S_ISDIR (item_mode d) = true) : dirLike (tailItem par) = true := by
  simp [dirLike, hpar, hd]

theorem resolvePath_start (r : Repo) (p : String) (par : Chain) (deref b : Bool)
    (comps : List String)
    (hd : decompose_path p = (false, b, comps))
    (hpar : dirLike (tailItem par) = true) :
    _resolve_path r p (some par) deref =
      walk r deref b (resolveFuel r p) 100 par comps := by
  simp [_resolve_path, hd, hpar]

/-- Sub-lemmas of the duplicate-suffix operator: run expansion length,
accumulator length, the no-adjacent-duplicates case and the uniform-run
case. -/
theorem expandRun_length (x : String) (n : Nat) : (expandRun x n).length = n := by
  cases hb : (n == 1) with
  | true =>
    have : n = 1 := by simpa using hb
    simp [expandRun, hb, this]
  | false => simp [expandRun, hb]

theorem rsdAux_length (x : String) (n : Nat) (ys : List String) :
    (rsdAux x n ys).length = n + ys.length := by
  induction ys generalizing x n with
  | nil => simp [rsdAux, expandRun_length]
  | cons y ys ih =>
    cases h : (y == x) with
    | true =>
      rw [rsdAux]
      simp only [h, if_true]
      rw [ih]
      simp; omega
    | false =>
      rw [rsdAux]
      simp only [h, Bool.false_eq_true, if_false]
      rw [List.length_append, expandRun_length, ih]
      simp; omega

theorem rsd_length (xs : List String) :
    (_reverse_suffix_duplicates xs).length = xs.length := by
  cases xs with
  | nil => rfl
  | cons x xs =>
    rw [_reverse_suffix_duplicates, rsdAux_length]
    simp; omega

theorem rsdAux_nodup (x : String) (xs : List String)
    (h : List.Chain' (fun a b => a ≠ b) (x :: xs)) : rsdAux x 1 xs = x :: xs := by
  induction xs generalizing x with
  | nil => simp [rsdAux, expandRun]
  | cons y ys ih =>
    rw [List.chain'_cons] at h
    have hyx : (y == x) = false := beq_eq_false_iff_ne.mpr (Ne.symm h.1)
    rw [rsdAux]
    simp only [hyx, Bool.false_eq_true, if_false]
    rw [ih y h.2]
    simp [expandRun]

theorem rsd_nodup (xs : List String)
    (h : List.Chain' (fun a b => a ≠ b) xs) :
    _reverse_suffix_duplicates xs = xs := by
  cases xs with
  | nil => rfl
  | cons x xs => exact rsdAux_nodup x xs h

theorem rsdAux_replicate (x : String) (n m : Nat) :
    rsdAux x n (List.replicate m x) = expandRun x (n + m) := by
  induction m generalizing n with
  | zero => simp [rsdAux]
  | succ m ih =>
    rw [List.replicate_succ, rsdAux]
    simp only [BEq.refl, if_true]
    rw [ih]
    exact congrArg (expandRun x) (by omega)

theorem rsd_replicate (s : String) (n : Nat) :
    _reverse_suffix_duplicates (List.replicate (n + 2) s) =
      (List.range (n + 2)).reverse.map
        fun i => s ++ dashStr ++ padNum (Nat.repr (n + 1)).length i := by
  rw [List.replicate_succ, _reverse_suffix_duplicates, rsdAux_replicate]
  have hb : ((n + 2 : Nat) == 1) = false := beq_eq_false_iff_ne.mpr (by omega)
  have h1 : (1 + (n + 1) : Nat) = n + 2 := by omega
  rw [h1, expandRun]
  simp only [hb, Bool.false_eq_true, if_false]
  have h2 : (n + 2 - 1 : Nat) = n + 1 := by omega
  rw [h2]

/-- A true boolean no-match filter over an optional value gives the
pointwise disequality. -/
theorem optAll_ne (o : Option String) (s : String)
    (h : o.all (fun z => z != s) = true) : ∀ z, o = some z → z ≠ s := by
  intro z hz
  subst hz
  simpa using h

theorem rsdAux_append (as : List String) (x : String) (k : Nat)
    (bs : List String)
    (hj : ∀ z, bs.head? = some z → z ≠ as.getLast?.getD x) :
    rsdAux x k (as ++ bs) = rsdAux x k as ++ _reverse_suffix_duplicates bs := by
  induction as generalizing x k with
  | nil =>
    cases bs with
    | nil => simp [rsdAux, _reverse_suffix_duplicates]
    | cons b bs' =>
      have hb : b ≠ x := by simpa using hj b rfl
      have hbx : (b == x) = false := beq_eq_false_iff_ne.mpr hb
      simp [rsdAux, _reverse_suffix_duplicates, hbx]
  | cons a as' ih =>
    have hgl : (a :: as').getLast?.getD x = as'.getLast?.getD a := by
      rw [List.getLast?_cons]
      rfl
    cases hax : (a == x) with
    | true =>
      have hax' : a = x := by simpa using hax
      rw [List.cons_append, rsdAux, rsdAux]
      simp only [hax, if_true]
      apply ih
      intro z hz
      have := hj z hz
      rw [hgl] at this
      rw [← hax']
      exact this
    | false =>
      rw [List.cons_append, rsdAux, rsdAux]
      simp only [hax, Bool.false_eq_true, if_false]
      rw [ih a 1 (fun z hz => by
        have := hj z hz
        rw [hgl] at this
        exact this)]
      rw [List.append_assoc]

theorem rsd_append (as bs : List String)
    (hj : ∀ y z, as.getLast? = some y → bs.head? = some z → z ≠ y) :
    _reverse_suffix_duplicates (as ++ bs) =
      _reverse_suffix_duplicates as ++ _reverse_suffix_duplicates bs := by
  cases as with
  | nil => simp [_reverse_suffix_duplicates]
  | cons a as' =>
    rw [List.cons_append, _reverse_suffix_duplicates, _reverse_suffix_duplicates]
    apply rsdAux_append
    intro z hz
    exact hj _ z List.getLast?_cons hz

theorem getLast_getD_replicate (stem : String) (m : Nat) :
    (List.replicate m stem).getLast?.getD stem = stem := by
  induction m with
  | zero => rfl
  | succ m ih =>
    rw [List.replicate_succ, List.getLast?_cons]
    simpa using ih

theorem rsd_maximal_run (pre post : List String) (stem : String) (n : Nat)
    (hn : 1 ≤ n)
    (hpre : ∀ y, pre.getLast? = some y → y ≠ stem)
    (hpost : ∀ z, post.head? = some z → z ≠ stem) :
    _reverse_suffix_duplicates (pre ++ List.replicate n stem ++ post) =
      _reverse_suffix_duplicates pre ++ expandRun stem n ++
        _reverse_suffix_duplicates post := by
  obtain ⟨m, rfl⟩ : ∃ m, n = m + 1 := ⟨n - 1, by omega⟩
  have h1 : _reverse_suffix_duplicates (List.replicate (m + 1) stem ++ post) =
      expandRun stem (m + 1) ++ _reverse_suffix_duplicates post := by
    rw [List.replicate_succ, List.cons_append, _reverse_suffix_duplicates]
    rw [rsdAux_append _ _ _ _ (fun z hz => by
      have := hpost z hz
      rw [getLast_getD_replicate]
      exact this)]
    rw [rsdAux_replicate]
    have : 1 + m = m + 1 := by omega
    rw [this]
  have hhead : (List.replicate (m + 1) stem ++ post).head? = some stem := by
    rw [List.replicate_succ, List.cons_append]
    rfl
  rw [List.append_assoc]
  rw [rsd_append pre _ (fun y z hy hz => by
    rw [hhead] at hz
    have hz' : z = stem := by
      rw [Option.some.injEq] at hz
      exact hz.symm
    subst hz'
    exact Ne.symm (hpre y hy))]
  rw [h1, List.append_assoc]

theorem rsd_run_expanded (pre post : List String) (stem : String) (n : Nat)
    (hn : 2 ≤ n)
    (hpre : pre.getLast?.all (fun y => y != stem) = true)
    (hpost : post.head?.all (fun z => z != stem) = true) :
    _reverse_suffix_duplicates (pre ++ List.replicate n stem ++ post) =
      _reverse_suffix_duplicates pre ++
        (List.range n).reverse.map
          (fun i => stem ++ dashStr ++ padNum (Nat.repr (n - 1)).length i) ++
        _reverse_suffix_duplicates post := by
  rw [rsd_maximal_run pre post stem n (by omega)
    (optAll_ne _ _ hpre) (optAll_ne _ _ hpost)]
  have hb : ((n : Nat) == 1) = false := beq_eq_false_iff_ne.mpr (by omega)
  rw [expandRun]
  simp only [hb, Bool.false_eq_true, if_false]

theorem rsd_run_singleton (pre post : List String) (stem : String)
    (hpre : pre.getLast?.all (fun y => y != stem) = true)
    (hpost : post.head?.all (fun z => z != stem) = true) :
    _reverse_suffix_duplicates (pre ++ [stem] ++ post) =
      _reverse_suffix_duplicates pre ++ [stem] ++
        _reverse_suffix_duplicates post := by
  have h := rsd_maximal_run pre post stem 1 (by omega)
    (optAll_ne _ _ hpre) (optAll_ne _ _ hpost)
  simpa [expandRun] using h

/-- The enrichment step always produces a full metadata record, and a
sized one when a size was requested. -/
theorem augmentFrom_full (r : Repo) (i : Item) (md : Metadata) (sz : Bool)
    (j : Item) (hmi : ∃ me, i.meta? = some me)
    (h : augmentFrom r i md sz = some j) :
    ∃ md2, j.meta? = some (Meta.full md2) ∧
      (sz = true → md2.size.isSome = true) := by
  obtain ⟨me, hme⟩ := hmi
  unfold augmentFrom at h
  cases hl : S_ISLNK md.mode with
  | true =>
    rw [hl] at h
    simp only [if_true] at h
    cases hr : readlink r i with
    | none => rw [hr] at h; simp at h
    | some t =>
      rw [hr] at h
      simp only [Option.some.injEq] at h
      subst h
      refine ⟨_, meta?_withMeta i me hme _, fun _ => ?_⟩
      rfl
  | false =>
    rw [hl] at h
    simp only [Bool.false_eq_true, if_false] at h
    cases sz with
    | true =>
      simp only [if_true] at h
      cases hs : item_size r i with
      | none => rw [hs] at h; simp at h
      | some s =>
        rw [hs] at h
        simp only [Option.some.injEq] at h
        subst h
        refine ⟨_, meta?_withMeta i me hme _, fun _ => ?_⟩
        rfl
    | false =>
      simp only [Bool.false_eq_true, if_false] at h
      simp only [Option.some.injEq] at h
      subst h
      exact ⟨md, meta?_withMeta i me hme _, fun hc => by cases hc⟩

theorem augment_full_noop (r : Repo) (i : Item) (sz : Bool) (md : Metadata)
    (hm : i.meta? = some (Meta.full md))
    (hcond : sz = false ∨ md.size.isSome = true) :
    augment_item_meta r i sz = some i := by
  unfold augment_item_meta
  rw [hm]
  have hg : (sz && md.size.isNone) = false := by
    rcases hcond with h | h
    · subst h; rfl
    · rcases Option.isSome_iff_exists.mp h with ⟨v, hv⟩
      simp [hv]
  simp [hg]

theorem augment_idem (r : Repo) (i : Item) (sz : Bool) (j : Item)
    (h : augment_item_meta r i sz = some j) :
    augment_item_meta r j sz = some j := by
  unfold augment_item_meta at h
  rcases hm : i.meta? with _ | me
  · rw [hm] at h
    simp only [Option.some.injEq] at h
    subst h
    unfold augment_item_meta
    rw [hm]
  · rcases me with m | md
    · rw [hm] at h
      obtain ⟨md2, hj, hsz⟩ := augmentFrom_full r i _ sz j ⟨_, hm⟩ h
      cases sz with
      | false =>
        unfold augment_item_meta
        rw [hj]
        simp
      | true =>
        rcases Option.isSome_iff_exists.mp (hsz rfl) with ⟨v, hv⟩
        unfold augment_item_meta
        rw [hj]
        simp [hv]
    · rw [hm] at h
      cases hg : (sz && md.size.isNone) with
      | false =>
        simp only [hg, Bool.false_eq_true, if_false, Option.some.injEq] at h
        subst h
        unfold augment_item_meta
        rw [hm]
        simp [hg]
      | true =>
        simp only [hg, if_true] at h
        have hsz : sz = true := by
          rcases Bool.and_eq_true sz md.size.isNone |>.mp hg with ⟨h1, _⟩
          exact h1
        obtain ⟨md2, hj, hs2⟩ := augmentFrom_full r i _ sz j ⟨_, hm⟩ h
        rcases Option.isSome_iff_exists.mp (hs2 hsz) with ⟨v, hv⟩
        unfold augment_item_meta
        rw [hj]
        subst hsz
        simp [hv]

theorem augment_mode_symlink (r : Repo) (i : Item) (m : Nat) (sz : Bool)
    (j : Item) (hm : i.meta? = some (Meta.mode m)) (hl : S_ISLNK m = true)
    (h : augment_item_meta r i sz = some j) :
    ∃ t, metaTargetOf j = some t ∧ metaSizeOf j = some t.length ∧
      isFullMeta j = true := by
  have h2 : augmentFrom r i (Metadata.ofMode m) sz = some j := by
    unfold augment_item_meta at h
    rw [hm] at h
    exact h
  unfold augmentFrom at h2
  have hl2 : S_ISLNK (Metadata.ofMode m).mode = true := hl
  rw [hl2] at h2
  simp only [if_true] at h2
  cases hr : readlink r i with
  | none => rw [hr] at h2; simp at h2
  | some t =>
    rw [hr] at h2
    simp only [Option.some.injEq] at h2
    subst h2
    have hj := meta?_withMeta i _ hm
    exact ⟨t, by simp [metaTargetOf, hj], by simp [metaSizeOf, hj],
      by simp [isFullMeta, hj]⟩

theorem augment_full_symlink (r : Repo) (i : Item) (md : Metadata)
    (j : Item) (hm : i.meta? = some (Meta.full md)) (hs : md.size = none)
    (hl : S_ISLNK md.mode = true)
    (h : augment_item_meta r i true = some j) :
    ∃ t, metaTargetOf j = some t ∧ metaSizeOf j = some t.length ∧
      isFullMeta j = true := by
  have h2 : augmentFrom r i md true = some j := by
    unfold augment_item_meta at h
    rw [hm] at h
    have h3 : (if (true && md.size.isNone) = true then augmentFrom r i md true
        else some i) = some j := h
    rw [hs] at h3
    simpa using h3
  unfold augmentFrom at h2
  rw [hl] at h2
  simp only [if_true] at h2
  cases hr : readlink r i with
  | none => rw [hr] at h2; simp at h2
  | some t =>
    rw [hr] at h2
    simp only [Option.some.injEq] at h2
    subst h2
    have hj := meta?_withMeta i _ hm
    exact ⟨t, by simp [metaTargetOf, hj], by simp [metaSizeOf, hj],
      by simp [isFullMeta, hj]⟩

theorem item_size_of_size (r : Repo) (i : Item) (md : Metadata) (s : Nat)
    (hm : i.meta? = some (Meta.full md)) (hs : md.size = some s) :
    item_size r i = some s := by
  simp [item_size, hm, hs]

theorem item_size_symlink (r : Repo) (i : Item) (t : String)
    (hns : metaSizeOf i = none) (hl : S_ISLNK (item_mode i) = true)
    (hrl : readlink r i = some t) :
    item_size r i = some t.length := by
  have hcomp : computeItemSize r i = some t.length := by
    unfold computeItemSize
    rw [hl]
    simp [hrl]
  rcases hm : i.meta? with _ | me
  · simp [item_size, hm, hcomp]
  · rcases me with m | md
    · simp [item_size, hm, hcomp]
    · have hmd : md.size = none := by
        simp only [metaSizeOf, hm] at hns
        exact hns
      simp [item_size, hm, hmd, hcomp]

theorem item_size_regular_blob (r : Repo) (o : Oid) (m : Meta) (b : String)
    (hns : metaSizeOf (Item.item o m) = none)
    (hreg : S_ISREG (item_mode (Item.item o m)) = true)
    (hb : r.blob o = some b) :
    item_size r (Item.item o m) = some b.length := by
  have hmm : item_mode (Item.item o m) = metaMode m := rfl
  have hnl : S_ISLNK (item_mode (Item.item o m)) = false :=
    isreg_not_islnk _ hreg
  have hcomp : computeItemSize r (Item.item o m) = some b.length := by
    unfold computeItemSize
    rw [hnl]
    simp only [Bool.false_eq_true, if_false]
    have hregm : S_ISREG (metaMode m) = true := by rw [← hmm]; exact hreg
    simp [hregm, hb]
  rcases m with mm | md
  · simpa [item_size, Item.meta?] using hcomp
  · have hmd : md.size = none := by
      simp only [metaSizeOf, Item.meta?] at hns
      exact hns
    simp [item_size, Item.meta?, hmd, hcomp]

theorem tree_items_dot (r : Repo) (o : Oid) (l : List TreeDictValue)
    (h : tree_items r o = some l) :
    ∃ dm rest, l = ⟨dotStr, o, dm⟩ :: rest ∧
      ∀ md, dm = some (Meta.full md) → md.size = some 0 := by
  unfold tree_items at h
  cases ht : r.tree o with
  | none => rw [ht] at h; simp at h
  | some t =>
    rw [ht] at h
    simp only [Option.map_some', Option.some.injEq] at h
    subst h
    refine ⟨_, _, rfl, ?_⟩
    intro md hmd
    cases hb : t.bupm with
    | none => rw [hb] at hmd; simp at hmd
    | some ms =>
      cases ms with
      | nil => rw [hb] at hmd; simp at hmd
      | cons m0 ms' =>
        rw [hb] at hmd
        simp only [Option.some.injEq, Meta.full.injEq] at hmd
        rw [← hmd]
        rfl

theorem treeItemsVfs_dot (r : Repo) (o : Oid) (l : List (String × Item))
    (h : treeItemsVfs r o = some l) :
    ∃ dm rest, l = (dotStr, Item.item o dm) :: rest ∧
      ∀ md, dm = Meta.full md → md.size = some 0 := by
  unfold treeItemsVfs at h
  cases ht : r.tree o with
  | none => rw [ht] at h; simp at h
  | some t =>
    rw [ht] at h
    simp only [Option.map_some', Option.some.injEq] at h
    subst h
    refine ⟨_, _, rfl, ?_⟩
    intro md hmd
    cases hb : t.bupm with
    | none => rw [hb] at hmd; simp at hmd
    | some ms =>
      cases ms with
      | nil => rw [hb] at hmd; simp at hmd
      | cons m0 ms' =>
        rw [hb] at hmd
        simp only [Meta.full.injEq] at hmd
        rw [← hmd]
        rfl

theorem commitTreeDotMeta_size (r : Repo) (co : Oid) (md : Metadata)
    (h : commitTreeDotMeta r co = some (Meta.full md)) : md.size = some 0 := by
  unfold commitTreeDotMeta at h
  cases hc : r.commitAt co with
  | none => rw [hc] at h; simp at h
  | some cobj =>
    rw [hc] at h
    simp only [Option.some_bind] at h
    unfold treeDotMeta at h
    cases ht : r.tree cobj.tree with
    | none => rw [ht] at h; simp at h
    | some t =>
      rw [ht] at h
      simp only [Option.map_some', Option.some.injEq] at h
      cases hb : t.bupm with
      | none =>
        rw [hb] at h
        simp at h
      | some ms =>
        cases ms with
        | nil => rw [hb] at h; simp at h
        | cons m0 ms' =>
          rw [hb] at h
          simp only [Meta.full.injEq] at h
          rw [← h]
          rfl

theorem walk_selfloop
    (r : Repo) (par : Chain) (d : Item) (lst : List (String × Item))
    (c : String) (link : Item)
    (hc : plainComp c = true)
    (hpar : tailItem par = some d) (hdir : S_ISDIR (item_mode d) = true)
    (hcont : contents r d = some lst)
    (hlook : lookupEnt lst c = some link)
    (hlnk : S_ISLNK (item_mode link) = true)
    (hrl : readlink r link = some c) :
    ∀ b f, b < f → walk r true false f b par [c] =
      .tooMany (some (par ++ [(c, some link)])) := by
  have hcdd := plainComp_ne_dotdot c hc
  have hcab : strIsAbs c = false := by
    rcases plainComp_head c hc with ⟨a, t2, hat, ha⟩
    exact strIsAbs_eq_false_of_data c a t2 hat ha
  have htc := pathComps_plain c hc
  intro b
  induction b with
  | zero =>
    intro f hf
    obtain ⟨g, rfl⟩ : ∃ g, f = g + 1 := ⟨f - 1, by omega⟩
    simp [walk, hcdd, hpar, hdir, hcont, hlook, hlnk]
  | succ b ih =>
    intro f hf
    obtain ⟨g, rfl⟩ : ∃ g, f = g + 1 := ⟨f - 1, by omega⟩
    have hb : ((b + 1 : Nat) == 0) = false := by simp
    have hstep : walk r true false (g + 1) (b + 1) par [c] =
        walk r true false g b par [c] := by
      simp [walk, hcdd, hpar, hdir, hcont, hlook, hlnk, hb, hrl, hcab, htc]
    rw [hstep]
    exact ih g (by omega)

/-- C1: for a path whose final component names a symlink in its
directory (here: a single plain component resolved against a parent
chain ending in that directory, the symlink's target a plain name in the
same directory that is not itself a symlink), `resolve` follows the link
so the chain's last entry is the target name with the item found there —
`none` when the target does not exist — while `lresolve` returns the
chain ending with the symlink name and the symlink item itself. -/
theorem resolve_final_symlink
    (r : Repo) (par : Chain) (d : Item) (lst : List (String × Item))
    (c t : String) (link : Item) (tgt : Option Item)
    (hc : plainComp c = true) (ht : plainComp t = true)
    (hpar : tailItem par = some d) (hdir : S_ISDIR (item_mode d) = true)
    (hcont : contents r d = some lst)
    (hlook : lookupEnt lst c = some link)
    (hlnk : S_ISLNK (item_mode link) = true)
    (hrl : readlink r link = some t)
    (htgt : lookupEnt lst t = tgt)
    (hnl : nonSymlinkOpt tgt = true) :
    resolve r c (some par) = .ok (par ++ [(t, tgt)]) ∧
    lresolve r c (some par) = .ok (par ++ [(c, some link)]) := by
  have hdl := dirLike_of par d hpar hdir
  have hdp := decompose_plainc c hc
  have hcdd := plainComp_ne_dotdot c hc
  have htdd := plainComp_ne_dotdot t ht
  have hcab : strIsAbs t = false := by
    rcases plainComp_head t ht with ⟨a, t2, hat, ha⟩
    exact strIsAbs_eq_false_of_data t a t2 hat ha
  have htc := pathComps_plain t ht
  have h100 : ((100 : Nat) == 0) = false := by decide
  obtain ⟨k, hk⟩ : ∃ k, resolveFuel r c = k + 3 :=
    ⟨resolveFuel r c - 3, by have := resolveFuel_big r c; omega⟩
  constructor
  · show _resolve_path r c (some par) true = _
    rw [resolvePath_start r c par true false [c] hdp hdl, hk]
    rcases tgt with _ | j
    · simp [walk, hcdd, hpar, hdir, hcont, hlook, hlnk, hrl, hcab, htc, htgt,
        htdd, h100]
    · have hjl : S_ISLNK (item_mode j) = false := by
        simpa [nonSymlinkOpt] using hnl
      simp [walk, hcdd, hpar, hdir, hcont, hlook, hlnk, hrl, hcab, htc, htgt,
        htdd, h100, hjl, tailItem_concat]
  · show _resolve_path r c (some par) false = _
    rw [resolvePath_start r c par false false [c] hdp hdl, hk]
    simp [walk, hcdd, hpar, hdir, hcont, hlook, hlnk, tailItem_concat]

/-- C2: chasing a symlink whose target never terminates (a link naming
itself) decrements the budget of 100 that `resolve` starts with and, on
exhaustion, fails with `TooManyLinks` whose terminus is the chain
resolved so far, ending at the looping symlink. -/
theorem resolve_symlink_self_loop
    (r : Repo) (par : Chain) (d : Item) (lst : List (String × Item))
    (c : String) (link : Item)
    (hc : plainComp c = true)
    (hpar : tailItem par = some d) (hdir : S_ISDIR (item_mode d) = true)
    (hcont : contents r d = some lst)
    (hlook : lookupEnt lst c = some link)
    (hlnk : S_ISLNK (item_mode link) = true)
    (hrl : readlink r link = some c) :
    resolve r c (some par) = .tooMany (some (par ++ [(c, some link)])) := by
  have hdl := dirLike_of par d hpar hdir
  have hdp := decompose_plainc c hc
  show _resolve_path r c (some par) true = _
  rw [resolvePath_start r c par true false [c] hdp hdl]
  exact walk_selfloop r par d lst c link hc hpar hdir hcont hlook hlnk hrl 100
    (resolveFuel r c) (by have := resolveFuel_big r c; omega)

/-- C3: a path whose final component resolves to a regular file but
which carries a trailing slash, `/.`, `/..` or a further plain
component fails, under both `resolve` and `lresolve`, with
`NotADirectory` whose terminus is the chain through that file. -/
theorem resolve_nondir_traversal
    (r : Repo) (par : Chain) (d : Item) (lst : List (String × Item))
    (c w : String) (fileIt : Item)
    (hc : plainComp c = true) (hw : plainComp w = true)
    (hpar : tailItem par = some d) (hdir : S_ISDIR (item_mode d) = true)
    (hcont : contents r d = some lst)
    (hlook : lookupEnt lst c = some fileIt)
    (hreg : S_ISREG (item_mode fileIt) = true) :
    (resolve r (c ++ slashStr) (some par) =
        .notDir (some (par ++ [(c, some fileIt)])) ∧
      lresolve r (c ++ slashStr) (some par) =
        .notDir (some (par ++ [(c, some fileIt)]))) ∧
    (resolve r (c ++ slashDotStr) (some par) =
        .notDir (some (par ++ [(c, some fileIt)])) ∧
      lresolve r (c ++ slashDotStr) (some par) =
        .notDir (some (par ++ [(c, some fileIt)]))) ∧
    (resolve r (c ++ slashDotDotStr) (some par) =
        .notDir (some (par ++ [(c, some fileIt)])) ∧
      lresolve r (c ++ slashDotDotStr) (some par) =
        .notDir (some (par ++ [(c, some fileIt)]))) ∧
    (resolve r (c ++ slashStr ++ w) (some par) =
        .notDir (some (par ++ [(c, some fileIt)])) ∧
      lresolve r (c ++ slashStr ++ w) (some par) =
        .notDir (some (par ++ [(c, some fileIt)]))) := by
  have hdl := dirLike_of par d hpar hdir
  have hcdd := plainComp_ne_dotdot c hc
  have hwdd := plainComp_ne_dotdot w hw
  have hnd := isreg_not_isdir _ hreg
  have hnl := isreg_not_islnk _ hreg
  have h100 : ((100 : Nat) == 0) = false := by decide
  refine ⟨⟨?_, ?_⟩, ⟨?_, ?_⟩, ⟨?_, ?_⟩, ⟨?_, ?_⟩⟩
  · show _resolve_path _ _ _ true = _
    rw [resolvePath_start r _ par true true [c] (decompose_slash c hc) hdl]
    obtain ⟨k, hk⟩ : ∃ k, resolveFuel r (c ++ slashStr) = k + 2 :=
      ⟨resolveFuel r (c ++ slashStr) - 2, by have := resolveFuel_big r (c ++ slashStr); omega⟩
    rw [hk]
    simp [walk, hcdd, hpar, hdir, hcont, hlook, hnd, hnl, h100, tailItem_concat,
      dirLike]
  · show _resolve_path _ _ _ false = _
    rw [resolvePath_start r _ par false true [c] (decompose_slash c hc) hdl]
    obtain ⟨k, hk⟩ : ∃ k, resolveFuel r (c ++ slashStr) = k + 2 :=
      ⟨resolveFuel r (c ++ slashStr) - 2, by have := resolveFuel_big r (c ++ slashStr); omega⟩
    rw [hk]
    simp [walk, hcdd, hpar, hdir, hcont, hlook, hnd, hnl, h100, tailItem_concat,
      dirLike]
  · show _resolve_path _ _ _ true = _
    rw [resolvePath_start r _ par true true [c] (decompose_slashdot c hc) hdl]
    obtain ⟨k, hk⟩ : ∃ k, resolveFuel r (c ++ slashDotStr) = k + 2 :=
      ⟨resolveFuel r (c ++ slashDotStr) - 2, by have := resolveFuel_big r (c ++ slashDotStr); omega⟩
    rw [hk]
    simp [walk, hcdd, hpar, hdir, hcont, hlook, hnd, hnl, h100, tailItem_concat,
      dirLike]
  · show _resolve_path _ _ _ false = _
    rw [resolvePath_start r _ par false true [c] (decompose_slashdot c hc) hdl]
    obtain ⟨k, hk⟩ : ∃ k, resolveFuel r (c ++ slashDotStr) = k + 2 :=
      ⟨resolveFuel r (c ++ slashDotStr) - 2, by have := resolveFuel_big r (c ++ slashDotStr); omega⟩
    rw [hk]
    simp [walk, hcdd, hpar, hdir, hcont, hlook, hnd, hnl, h100, tailItem_concat,
      dirLike]
  · show _resolve_path _ _ _ true = _
    rw [resolvePath_start r _ par true false [c, dotdotStr]
      (decompose_slashdotdot c hc) hdl]
    obtain ⟨k, hk⟩ : ∃ k, resolveFuel r (c ++ slashDotDotStr) = k + 2 :=
      ⟨resolveFuel r (c ++ slashDotDotStr) - 2, by have := resolveFuel_big r (c ++ slashDotDotStr); omega⟩
    rw [hk]
    simp [walk, hcdd, hpar, hdir, hcont, hlook, hnd, hnl, h100, tailItem_concat,
      dirLike]
  · show _resolve_path _ _ _ false = _
    rw [resolvePath_start r _ par false false [c, dotdotStr]
      (decompose_slashdotdot c hc) hdl]
    obtain ⟨k, hk⟩ : ∃ k, resolveFuel r (c ++ slashDotDotStr) = k + 2 :=
      ⟨resolveFuel r (c ++ slashDotDotStr) - 2, by have := resolveFuel_big r (c ++ slashDotDotStr); omega⟩
    rw [hk]
    simp [walk, hcdd, hpar, hdir, hcont, hlook, hnd, hnl, h100, tailItem_concat,
      dirLike]
  · show _resolve_path _ _ _ true = _
    rw [resolvePath_start r _ par true false [c, w]
      (decompose_two c w hc hw) hdl]
    obtain ⟨k, hk⟩ : ∃ k, resolveFuel r (c ++ slashStr ++ w) = k + 2 :=
      ⟨resolveFuel r (c ++ slashStr ++ w) - 2, by have := resolveFuel_big r (c ++ slashStr ++ w); omega⟩
    rw [hk]
    simp [walk, hcdd, hwdd, hpar, hdir, hcont, hlook, hnd, hnl, h100,
      tailItem_concat, dirLike]
  · show _resolve_path _ _ _ false = _
    rw [resolvePath_start r _ par false false [c, w]
      (decompose_two c w hc hw) hdl]
    obtain ⟨k, hk⟩ : ∃ k, resolveFuel r (c ++ slashStr ++ w) = k + 2 :=
      ⟨resolveFuel r (c ++ slashStr ++ w) - 2, by have := resolveFuel_big r (c ++ slashStr ++ w); omega⟩
    rw [hk]
    simp [walk, hcdd, hwdd, hpar, hdir, hcont, hlook, hnd, hnl, h100,
      tailItem_concat, dirLike]

/-- C4: a non-final component absent from the current directory's
listing makes `resolve` and `lresolve` fail with `NotADirectory` whose
terminus is the chain extended with the `(component, none)` tail, while
an absent final component is returned as a chain ending in
`(component, none)`, not raised. -/
theorem resolve_missing_component
    (r : Repo) (par : Chain) (d : Item) (lst : List (String × Item))
    (c w : String)
    (hc : plainComp c = true) (hw : plainComp w = true)
    (hpar : tailItem par = some d) (hdir : S_ISDIR (item_mode d) = true)
    (hcont : contents r d = some lst)
    (hlook : lookupEnt lst c = none) :
    (resolve r c (some par) = .ok (par ++ [(c, none)]) ∧
      lresolve r c (some par) = .ok (par ++ [(c, none)])) ∧
    (resolve r (c ++ slashStr ++ w) (some par) =
        .notDir (some (par ++ [(c, none)])) ∧
      lresolve r (c ++ slashStr ++ w) (some par) =
        .notDir (some (par ++ [(c, none)]))) := by
  have hdl := dirLike_of par d hpar hdir
  have hcdd := plainComp_ne_dotdot c hc
  refine ⟨⟨?_, ?_⟩, ?_, ?_⟩
  · show _resolve_path _ _ _ true = _
    rw [resolvePath_start r c par true false [c] (decompose_plainc c hc) hdl]
    obtain ⟨k, hk⟩ : ∃ k, resolveFuel r c = k + 1 :=
      ⟨resolveFuel r c - 1, by have := resolveFuel_big r c; omega⟩
    rw [hk]
    simp [walk, hcdd, hpar, hdir, hcont, hlook]
  · show _resolve_path _ _ _ false = _
    rw [resolvePath_start r c par false false [c] (decompose_plainc c hc) hdl]
    obtain ⟨k, hk⟩ : ∃ k, resolveFuel r c = k + 1 :=
      ⟨resolveFuel r c - 1, by have := resolveFuel_big r c; omega⟩
    rw [hk]
    simp [walk, hcdd, hpar, hdir, hcont, hlook]
  · show _resolve_path _ _ _ true = _
    rw [resolvePath_start r _ par true false [c, w]
      (decompose_two c w hc hw) hdl]
    obtain ⟨k, hk⟩ : ∃ k, resolveFuel r (c ++ slashStr ++ w) = k + 1 :=
      ⟨resolveFuel r (c ++ slashStr ++ w) - 1, by have := resolveFuel_big r (c ++ slashStr ++ w); omega⟩
    rw [hk]
    simp [walk, hcdd, hpar, hdir, hcont, hlook]
  · show _resolve_path _ _ _ false = _
    rw [resolvePath_start r _ par false false [c, w]
      (decompose_two c w hc hw) hdl]
    obtain ⟨k, hk⟩ : ∃ k, resolveFuel r (c ++ slashStr ++ w) = k + 1 :=
      ⟨resolveFuel r (c ++ slashStr ++ w) - 1, by have := resolveFuel_big r (c ++ slashStr ++ w); omega⟩
    rw [hk]
    simp [walk, hcdd, hpar, hdir, hcont, hlook]


/-- C5: `_reverse_suffix_duplicates` preserves the length of its input;
every maximal run of `n > 1` equal names `stem` inside any input —
delimited by the list's ends or by neighbouring names different from
`stem` — is replaced in place by `stem-(n-1), …, stem-0` in encounter
order, zero-padded to the width of `n-1` (so eleven equal names get the
width-2 suffixes `-10` down to `-00`); a non-duplicated name (a maximal
run of one) is kept unchanged in place, and a list with no adjacent
duplicates comes back whole. -/
theorem reverse_suffix_duplicates_props :
    (∀ xs : List String, (_reverse_suffix_duplicates xs).length = xs.length) ∧
    (∀ (pre post : List String) (stem : String) (n : Nat),
      2 ≤ n →
      pre.getLast?.all (fun y => y != stem) = true →
      post.head?.all (fun z => z != stem) = true →
      _reverse_suffix_duplicates (pre ++ List.replicate n stem ++ post) =
        _reverse_suffix_duplicates pre ++
          (List.range n).reverse.map
            (fun i => stem ++ dashStr ++ padNum (Nat.repr (n - 1)).length i) ++
          _reverse_suffix_duplicates post) ∧
    (∀ (pre post : List String) (stem : String),
      pre.getLast?.all (fun y => y != stem) = true →
      post.head?.all (fun z => z != stem) = true →
      _reverse_suffix_duplicates (pre ++ [stem] ++ post) =
        _reverse_suffix_duplicates pre ++ [stem] ++
          _reverse_suffix_duplicates post) ∧
    (∀ xs : List String, List.Chain' (fun a b => a ≠ b) xs →
      _reverse_suffix_duplicates xs = xs) ∧
    _reverse_suffix_duplicates (List.replicate 11 "x") =
      ["x-10", "x-09", "x-08", "x-07", "x-06", "x-05", "x-04", "x-03",
        "x-02", "x-01", "x-00"] ∧
    _reverse_suffix_duplicates ["x", "x", "y"] = ["x-1", "x-0", "y"] ∧
    _reverse_suffix_duplicates ["x", "y", "y", "z"] = ["x", "y-1", "y-0", "z"] :=
  ⟨rsd_length, rsd_run_expanded, rsd_run_singleton, rsd_nodup,
   by decide, by decide, by decide⟩

/-- Witness for C5: a run of two `x` between differing neighbours is
replaced in place, and a lone `y` between differing neighbours is kept. -/
theorem reverse_suffix_duplicates_props_w :
    (["a"] : List String).getLast?.all (fun y => y != "x") = true ∧
    (["b"] : List String).head?.all (fun z => z != "x") = true ∧
    _reverse_suffix_duplicates ["a", "x", "x", "b"] = ["a", "x-1", "x-0", "b"] ∧
    _reverse_suffix_duplicates ["a", "y", "b"] = ["a", "y", "b"] :=
  ⟨by decide, by decide,
   reverse_suffix_duplicates_props.2.1 ["a"] ["b"] "x" 2 (by decide)
     (by decide) (by decide),
   reverse_suffix_duplicates_props.2.2.1 ["a"] ["b"] "y" (by decide)
     (by decide)⟩

/-- C6: after eleven saves of the same tree at save time 100000 (UTC) on
branch `test`, the revision-list directory's contents, sorted by name,
are exactly `.`, `1970-01-02-034640-00` through `1970-01-02-034640-10`,
and `latest`. -/
theorem duplicate_save_dates_listing :
    resolve repoC "/test" none =
      .ok [(emptyStr, some Item.root), ("test", some rvC)] ∧
    (contents repoC rvC).map (fun l => sortNames (l.map (·.1))) =
      some [".", "1970-01-02-034640-00", "1970-01-02-034640-01",
        "1970-01-02-034640-02", "1970-01-02-034640-03", "1970-01-02-034640-04",
        "1970-01-02-034640-05", "1970-01-02-034640-06", "1970-01-02-034640-07",
        "1970-01-02-034640-08", "1970-01-02-034640-09", "1970-01-02-034640-10",
        "latest"] :=
  ⟨by decide, by decide⟩

/-- C7: `augment_item_meta` is idempotent — augmenting an augmented item
returns it unchanged — and an item whose meta is already a full
`Metadata` with `include_size` unset or the size present is returned as
the very same value. -/
theorem augment_item_meta_idempotent :
    (∀ (r : Repo) (i : Item) (sz : Bool) (j : Item),
      augment_item_meta r i sz = some j →
      augment_item_meta r j sz = some j) ∧
    (∀ (r : Repo) (i : Item) (sz : Bool) (md : Metadata),
      i.meta? = some (Meta.full md) →
      (sz = false ∨ md.size.isSome = true) →
      augment_item_meta r i sz = some i) :=
  ⟨augment_idem, augment_full_noop⟩

/-- Witness for C7: a bare-mode symlink augments once and is then a
fixed point; a fully populated file item is returned unchanged. -/
theorem augment_item_meta_idempotent_w :
    augment_item_meta repoA linkBareA false = some linkAugA ∧
    augment_item_meta repoA linkAugA false = some linkAugA ∧
    augment_item_meta repoA fileItA true = some fileItA :=
  ⟨by decide,
   augment_item_meta_idempotent.1 repoA linkBareA false linkAugA (by decide),
   augment_item_meta_idempotent.2 repoA fileItA true mdFileA (by decide)
     (Or.inr (by decide))⟩

/-- C8 counterexample: a symlink item whose meta is already a full
`Metadata` carrying a size but no target is returned untouched by the
augmenter under either `include_size`, so its metadata has no
`symlink_target` afterwards — contradicting the claim for every symlink
item. -/
theorem augment_symlink_target_cex :
    S_ISLNK (item_mode badLink) = true ∧
    augment_item_meta emptyRepo badLink false = some badLink ∧
    augment_item_meta emptyRepo badLink true = some badLink ∧
    metaTargetOf badLink = none := by
  decide

/-- C8 (amended): for a symlink item whose meta is a bare mode (any
`include_size`), or a full `Metadata` lacking a size when a size is
requested, augmentation yields a full metadata with `symlink_target`
present and `meta.size` equal to the target's length; other symlink
items are returned unchanged (see the counterexample). -/
theorem augment_symlink_fills_target :
    (∀ (r : Repo) (i : Item) (m : Nat) (sz : Bool) (j : Item),
      i.meta? = some (Meta.mode m) → S_ISLNK m = true →
      augment_item_meta r i sz = some j →
      ∃ t, metaTargetOf j = some t ∧ metaSizeOf j = some t.length ∧
        isFullMeta j = true) ∧
    (∀ (r : Repo) (i : Item) (md : Metadata) (j : Item),
      i.meta? = some (Meta.full md) → md.size = none →
      S_ISLNK md.mode = true →
      augment_item_meta r i true = some j →
      ∃ t, metaTargetOf j = some t ∧ metaSizeOf j = some t.length ∧
        isFullMeta j = true) :=
  ⟨augment_mode_symlink, augment_full_symlink⟩

/-- Witness for the amended C8 at the scenario's bare-mode symlink. -/
theorem augment_symlink_fills_target_w :
    S_ISLNK 41471 = true ∧
    (∃ t, metaTargetOf linkAugA = some t ∧ metaSizeOf linkAugA = some t.length ∧
      isFullMeta linkAugA = true) :=
  ⟨by decide,
   augment_symlink_fills_target.1 repoA linkBareA 41471 false linkAugA
     (by decide) (by decide) (by decide)⟩

/-- C9: `item_size` returns a recorded `meta.size` for any store at all
(hence without store reads, even when the value disagrees with the
blob), and otherwise the target length for a symlink and the blob's byte
length for a regular file. -/
theorem item_size_characterization :
    (∀ (r : Repo) (i : Item) (md : Metadata) (s : Nat),
      i.meta? = some (Meta.full md) → md.size = some s →
      item_size r i = some s) ∧
    (∀ (r : Repo) (i : Item) (t : String),
      metaSizeOf i = none → S_ISLNK (item_mode i) = true →
      readlink r i = some t → item_size r i = some t.length) ∧
    (∀ (r : Repo) (o : Oid) (m : Meta) (b : String),
      metaSizeOf (Item.item o m) = none →
      S_ISREG (item_mode (Item.item o m)) = true →
      r.blob o = some b → item_size r (Item.item o m) = some b.length) :=
  ⟨item_size_of_size, item_size_symlink, item_size_regular_blob⟩

/-- Witness for C9: the stored size 42 wins over the 7-byte blob; the
symlink and plain-file cases at the scenario store. -/
theorem item_size_characterization_w :
    Repo.blob repoA 4 = some "canary\n" ∧
    item_size repoA fake42 = some 42 ∧
    item_size repoA linkBareA = some 4 ∧
    item_size repoA (Item.item 4 (Meta.mode 33188)) = some 7 :=
  ⟨by decide,
   item_size_characterization.1 repoA fake42 md42A 42 (by decide) (by decide),
   item_size_characterization.2.1 repoA linkBareA "file" (by decide)
     (by decide) (by decide),
   item_size_characterization.2.2 repoA 4 (Meta.mode 33188) "canary\n"
     (by decide) (by decide) (by decide)⟩

/-- C10: every tree listing begins with a `.` entry for the tree itself
whose full metadata, when present, has size zero (not the size stored in
the metadata stream) — in the test suite's cross-check `tree_items`, in
the modelled VFS tree listing, and in the tree metadata that revision
list and commit items inherit. -/
theorem dot_metadata_size_zero :
    (∀ (r : Repo) (o : Oid) (l : List TreeDictValue),
      tree_items r o = some l →
      ∃ dm rest, l = ⟨dotStr, o, dm⟩ :: rest ∧
        ∀ md, dm = some (Meta.full md) → md.size = some 0) ∧
    (∀ (r : Repo) (o : Oid) (l : List (String × Item)),
      treeItemsVfs r o = some l →
      ∃ dm rest, l = (dotStr, Item.item o dm) :: rest ∧
        ∀ md, dm = Meta.full md → md.size = some 0) ∧
    (∀ (r : Repo) (co : Oid) (md : Metadata),
      commitTreeDotMeta r co = some (Meta.full md) → md.size = some 0) :=
  ⟨tree_items_dot, treeItemsVfs_dot, commitTreeDotMeta_size⟩

/-- Witness for C10: the scenario's metadata stream records size 7 for
the tree's own entry, yet the commit metadata the listings inherit
carries size 0. -/
theorem dot_metadata_size_zero_w :
    mdDotA.size = some 7 ∧
    commitTreeDotMeta repoA 1 = some (Meta.full dotA0) ∧
    dotA0.size = some 0 :=
  ⟨by decide, by decide, dot_metadata_size_zero.2.2 repoA 1 dotA0 (by decide)⟩

/-- Witness for C1 at the scenario: `file-symlink → file` resolves to
the file under `resolve` and to the symlink under `lresolve`;
`bad-symlink → not-there` resolves to a `none` tail. -/
theorem resolve_final_symlink_w :
    plainComp "file-symlink" = true ∧
    resolve repoA "file-symlink" (some latestChainA) =
      .ok (latestChainA ++ [("file", some fileItA)]) ∧
    lresolve repoA "file-symlink" (some latestChainA) =
      .ok (latestChainA ++ [("file-symlink", some linkItA)]) ∧
    resolve repoA "bad-symlink" (some latestChainA) =
      .ok (latestChainA ++ [("not-there", (none : Option Item))]) ∧
    lresolve repoA "bad-symlink" (some latestChainA) =
      .ok (latestChainA ++ [("bad-symlink", some badLinkItA)]) :=
  have h1 := resolve_final_symlink repoA latestChainA cmA
    ((contents repoA cmA).getD []) "file-symlink" "file" linkItA (some fileItA)
    (by decide) (by decide) (by decide) (by decide) (by decide) (by decide)
    (by decide) (by decide) (by decide) (by decide)
  have h2 := resolve_final_symlink repoA latestChainA cmA
    ((contents repoA cmA).getD []) "bad-symlink" "not-there" badLinkItA none
    (by decide) (by decide) (by decide) (by decide) (by decide) (by decide)
    (by decide) (by decide) (by decide) (by decide)
  ⟨by decide, h1.1, h1.2, h2.1, h2.2⟩

/-- Witness for C2 at the loop scenario, with the terminus names the
test suite pins and the same failure from the absolute path. -/
theorem resolve_symlink_self_loop_w :
    readlink repoLoop loopLinkItem = some "loop" ∧
    resolve repoLoop "loop" (some latestChainLoop) =
      .tooMany (some (latestChainLoop ++ [("loop", some loopLinkItem)])) ∧
    chainNames (latestChainLoop ++ [("loop", some loopLinkItem)]) =
      ["", "test", "latest", "loop"] ∧
    resolve repoLoop "/test/latest/loop" none =
      .tooMany (some (latestChainLoop ++ [("loop", some loopLinkItem)])) :=
  ⟨by decide,
   resolve_symlink_self_loop repoLoop latestChainLoop cmLoop
     ((contents repoLoop cmLoop).getD []) "loop" loopLinkItem
     (by decide) (by decide) (by decide) (by decide) (by decide) (by decide)
     (by decide),
   by decide, by decide⟩

/-- Witness for C3 at the scenario's regular file, with the terminus
names the test suite pins. -/
theorem resolve_nondir_traversal_w :
    S_ISREG (item_mode fileItA) = true ∧
    resolve repoA ("file" ++ slashStr) (some latestChainA) =
      .notDir (some (latestChainA ++ [("file", some fileItA)])) ∧
    resolve repoA ("file" ++ slashDotDotStr) (some latestChainA) =
      .notDir (some (latestChainA ++ [("file", some fileItA)])) ∧
    lresolve repoA ("file" ++ slashStr ++ "foo") (some latestChainA) =
      .notDir (some (latestChainA ++ [("file", some fileItA)])) ∧
    chainNames (latestChainA ++ [("file", some fileItA)]) =
      ["", "test", "latest", "file"] :=
  have h := resolve_nondir_traversal repoA latestChainA cmA
    ((contents repoA cmA).getD []) "file" "foo" fileItA
    (by decide) (by decide) (by decide) (by decide) (by decide) (by decide)
    (by decide)
  ⟨by decide, h.1.1, h.2.2.1.1, h.2.2.2.2, by decide⟩

/-- Witness for C4 at the scenario: a missing final component comes back
as a `none` tail (also from the absolute path), a missing intermediate
one raises. -/
theorem resolve_missing_component_w :
    lookupEnt ((contents repoA cmA).getD []) "missing" = none ∧
    resolve repoA "missing" (some latestChainA) =
      .ok (latestChainA ++ [("missing", (none : Option Item))]) ∧
    resolve repoA ("missing" ++ slashStr ++ "foo") (some latestChainA) =
      .notDir (some (latestChainA ++ [("missing", (none : Option Item))])) ∧
    resolve repoA "/test/latest/missing" none =
      .ok (latestChainA ++ [("missing", (none : Option Item))]) :=
  have h := resolve_missing_component repoA latestChainA cmA
    ((contents repoA cmA).getD []) "missing" "foo"
    (by decide) (by decide) (by decide) (by decide) (by decide) (by decide)
  ⟨by decide, h.1.1, h.2.1, by decide⟩

end Bup
